import Mathlib

/-!
Verification development for the `news-cli` repository: a shallow embedding
of the ingestion pipeline (`src/news/fetch.rs`), the menu/label builder
(`src/news/mod.rs`), the navigation engine (`src/ui.rs`), and the seen-store
loader (`src/history.rs`), together with theorems settling the specified
properties against the embedded code.
-/

namespace NewsCli

/-- Model of `Story` as used by the ingestion pipeline and the menu builder.
Note: `src/news/model.rs` declares only `title`, `link`, `source`; the field
`is_new` is the one constructed in `fetch.rs` (`push_entries`) and read in
`mod.rs`, so the embedding carries it (the missing declaration in `model.rs`
is recorded as a code defect for the relevant claim). -/
structure Story where
  title : String
  link : String
  source : String
  is_new : Bool
deriving Repr, DecidableEq

/-- The comparison used by `all.sort_by(|a, b| a.link.cmp(&b.link))`:
compare stories by their link string (lexicographic, which for UTF-8
byte order and codepoint order coincide). -/
def linkLe (a b : Story) : Prop := a.link ≤ b.link

instance : DecidableRel linkLe := fun a b =>
  decidable_of_iff (a.link.toList ≤ b.link.toList) String.le_iff_toList_le.symm

instance : IsTotal Story linkLe := ⟨fun a b => le_total a.link b.link⟩

instance : IsTrans Story linkLe := ⟨fun _ _ _ h1 h2 => le_trans h1 h2⟩

instance : IsTrans Story (fun a b => a.link < b.link) := ⟨fun _ _ _ h1 h2 => lt_trans h1 h2⟩

/-- Model of `all.sort_by(|a, b| a.link.cmp(&b.link))` in `collect_stories`
(fetch.rs line 79). Rust's `sort_by` is a stable sort under the comparator;
`insertionSort` is also stable for the same total preorder, so the outputs
agree elementwise. -/
def sortStories (l : List Story) : List Story := l.insertionSort linkLe

/-- Helper for `dedupByLink`: the kept element `a` is compared against the
next element `b`; on an equal link `b` is dropped and `a` stays the kept
element, otherwise `a` is emitted and `b` becomes the kept element. -/
def dedupByLinkAux (a : Story) : List Story → List Story
  | [] => [a]
  | b :: rest =>
    if a.link = b.link then dedupByLinkAux a rest
    else a :: dedupByLinkAux b rest

/-- Model of `all.dedup_by(|a, b| a.link == b.link)` in `collect_stories`
(fetch.rs line 80): remove every element equal-by-link to its predecessor,
keeping the first element of each consecutive equal-link run. -/
def dedupByLink : List Story → List Story
  | [] => []
  | a :: rest => dedupByLinkAux a rest

/-- The sort-then-dedup step at the end of `collect_stories`
(fetch.rs lines 78-82). -/
def collectDedup (l : List Story) : List Story := dedupByLink (sortStories l)

/-- A concrete story list with a repeated link, used to instantiate the
universally quantified dedup theorem. -/
def demoStories : List Story :=
  [⟨"t1", "https://a.com/x", "A", true⟩,
   ⟨"t2", "https://a.com/x", "B", false⟩,
   ⟨"t3", "https://b.com/y", "A", true⟩]

/-- Model of a parsed absolute URL from the external `url` crate, restricted
to the components `normalize_link` observes: the (lowercased) scheme and,
for authority-carrying URLs, host and path. URLs without an authority
(such as `mailto:x`) carry their remainder in `path` with
`hasAuth = false`. -/
structure ParsedUrl where
  scheme : String
  hasAuth : Bool
  host : String
  path : String
deriving Repr, DecidableEq

/-- ASCII-lowercase a string, character by character (kernel-computable
form of per-char lowercasing). -/
def asciiLower (s : String) : String := ⟨s.data.map Char.toLower⟩

/-- ASCII-uppercase a string, character by character, modelling
`str::to_uppercase` on ASCII content. -/
def asciiUpper (s : String) : String := ⟨s.data.map Char.toUpper⟩

/-- Valid non-initial scheme characters per RFC 3986. -/
def isSchemeRestChar (c : Char) : Bool :=
  c.isAlphanum || c == '+' || c == '-' || c == '.'

/-- Scan scheme characters up to a colon; the remainder follows the colon. -/
def splitSchemeAux (acc : List Char) : List Char → Option (List Char × List Char)
  | [] => none
  | c :: cs =>
    if c = ':' then some (acc, cs)
    else if isSchemeRestChar c then splitSchemeAux (acc ++ [c]) cs
    else none

/-- Split `scheme:rest`; fails when the string has no leading valid scheme
followed by a colon, which is exactly when `Url::parse` reports a
relative-reference error for the inputs this model covers. -/
def splitScheme (s : String) : Option (String × List Char) :=
  match s.data with
  | [] => none
  | c :: cs =>
    if c.isAlpha then
      match splitSchemeAux [c] cs with
      | some (sch, rest) => some (⟨sch⟩, rest)
      | none => none
    else none

/-- Split an authority remainder into host and path; an empty path is
serialized as "/" as the `url` crate does for special schemes. -/
def splitHostPath (l : List Char) : String × String :=
  let host := l.takeWhile (fun c => c ≠ '/')
  let path := l.dropWhile (fun c => c ≠ '/')
  (⟨host⟩, if path.isEmpty then "/" else ⟨path⟩)

/-- Model of `Url::parse`, from the spec and RFC 3986/WHATWG behaviour of
the external `url` crate, restricted to the URL shapes the claims exercise:
an absolute URL is a valid scheme, a colon, and either `//authority/path`
or an inert remainder. -/
def urlParse (s : String) : Option ParsedUrl :=
  match splitScheme s with
  | none => none
  | some (sch, rest) =>
    match rest with
    | '/' :: '/' :: auth =>
      let hp := splitHostPath auth
      some ⟨asciiLower sch, true, hp.1, hp.2⟩
    | other => some ⟨asciiLower sch, false, "", ⟨other⟩⟩

/-- Drop the last path segment (everything after the final '/'), per the
RFC 3986 merge step. -/
def dropLastSegment (p : List Char) : List Char :=
  ((p.reverse.dropWhile (fun c => c ≠ '/')).reverse)

/-- Model of `Url::join` (external `url` crate), from the spec: standard
relative-reference resolution, restricted to the reference forms the claims
exercise (network-path `//…`, absolute-path `/…`, and relative-path
references, without dot-segment normalization); joining against a URL with
no authority fails, matching the crate's cannot-be-a-base failure. -/
def urlJoin (base : ParsedUrl) (r : String) : Option ParsedUrl :=
  if base.hasAuth = false then none
  else
    match r.data with
    | '/' :: '/' :: auth =>
      let hp := splitHostPath auth
      some ⟨base.scheme, true, hp.1, hp.2⟩
    | '/' :: rest => some ⟨base.scheme, true, base.host, ⟨'/' :: rest⟩⟩
    | rest => some ⟨base.scheme, true, base.host, ⟨dropLastSegment base.path.data ++ rest⟩⟩

/-- Serialization of a parsed URL (`Url::into_string`). -/
def urlToString (u : ParsedUrl) : String :=
  if u.hasAuth then u.scheme ++ "://" ++ u.host ++ u.path
  else u.scheme ++ ":" ++ u.path

/-- Model of `candidate.trim().is_empty()`: true iff every character is
whitespace (`Char.isWhitespace` approximates Rust's Unicode whitespace on
the ASCII range). -/
def isBlank (s : String) : Bool := s.data.all Char.isWhitespace

/-- The resolution step of `normalize_link` (fetch.rs lines 124-130):
parse the candidate as absolute, otherwise join it against the base when
one is present. -/
def resolveCandidate (candidate : String) (base : Option ParsedUrl) : Option ParsedUrl :=
  match urlParse candidate with
  | some u => some u
  | none =>
    match base with
    | none => none
    | some b => urlJoin b candidate

/-- Model of `normalize_link` (fetch.rs lines 122-135). -/
def normalizeLink (candidate : String) (base : Option ParsedUrl) : Option String :=
  if isBlank candidate then none
  else
    match resolveCandidate candidate base with
    | none => none
    | some resolved =>
      if resolved.scheme = "http" ∨ resolved.scheme = "https" then
        some (urlToString resolved)
      else none

/-- Model of one `feed_rs` link: an href and an optional relation. -/
structure FeedLink where
  href : String
  rel : Option String
deriving Repr, DecidableEq

/-- Model of one `feed_rs` entry as consumed by `push_entries`. -/
structure FeedEntry where
  title : Option String
  links : List FeedLink
deriving Repr, DecidableEq

/-- Model of `SeenStories` (history.rs): the set of previously seen links,
here as a list whose order is irrelevant (only membership is consulted). -/
structure SeenStories where
  seen_links : List String
deriving Repr, DecidableEq

/-- Model of `SeenStories::is_seen` (history.rs lines 42-44). -/
def SeenStories.is_seen (h : SeenStories) (link : String) : Bool :=
  h.seen_links.contains link

/-- The title rule of `push_entries` (fetch.rs lines 96-100). -/
def entryTitle (e : FeedEntry) : String := e.title.getD "(untitled)"

/-- The raw-link rule of `push_entries` (fetch.rs lines 102-108): prefer the
link whose rel is "alternate", else the first link, else the empty string. -/
def entryRawLink (e : FeedEntry) : String :=
  match e.links.find? (fun l => l.rel.getD "" == "alternate") with
  | some l => l.href
  | none =>
    match e.links.head? with
    | some l => l.href
    | none => ""

/-- Model of `push_entries` (fetch.rs lines 85-120): for each entry whose
raw link normalizes, produce a Story labeled with the configured source name
and flagged `is_new = !history.is_seen(link)`; entries that fail
normalization are dropped. (`Story` is modelled with the `is_new` field the
function writes, although `model.rs` omits it.) -/
def pushEntries (source : String) (base : Option ParsedUrl) (history : SeenStories)
    (entries : List FeedEntry) : List Story :=
  entries.filterMap fun entry =>
    match normalizeLink (entryRawLink entry) base with
    | some normalized =>
      some ⟨entryTitle entry, normalized, source, !history.is_seen normalized⟩
    | none => none

/-- Model of `collect_stories` (fetch.rs lines 11-83) after fetch/parse:
each configured feed contributes its parsed entries (a fetch or parse
failure contributes the empty list), entries are pushed in feed order, and
the merged list is sorted by link and deduplicated. -/
def collectStories (feeds : List (String × Option ParsedUrl × List FeedEntry))
    (history : SeenStories) : List Story :=
  collectDedup (feeds.flatMap (fun f => pushEntries f.1 f.2.1 history f.2.2))

/-- Concrete seen-store containing only the link L1. -/
def demoHistory : SeenStories := ⟨["https://l1.example/a"]⟩

/-- Concrete entries producing links L1 and L2. -/
def demoEntries : List FeedEntry :=
  [⟨some "e1", [⟨"https://l1.example/a", some "alternate"⟩]⟩,
   ⟨some "e2", [⟨"https://l2.example/b", none⟩]⟩]

/-- Character classes of the CSI-stripping regex in `sanitize_for_terminal`
(sanitize.rs line 9): parameter bytes `[0-9;?]`. -/
def isCsiParamChar (c : Char) : Bool := c.isDigit || c == ';' || c == '?'

/-- Intermediate bytes, the range from space to slash (0x20-0x2F). -/
def isCsiInterChar (c : Char) : Bool := 32 ≤ c.toNat && c.toNat ≤ 47

/-- Final bytes `[@-~]` (0x40-0x7E). -/
def isCsiFinalChar (c : Char) : Bool := 64 ≤ c.toNat && c.toNat ≤ 126

/-- Scanner state for the CSI-stripping pass: outside a sequence, after an
ESC, in the parameter section, or in the intermediate section; the pending
pending incompletely-matched characters are carried so a failed match is emitted
verbatim, as a regex `replace_all` leaves non-matching text in place. -/
inductive CsiSt where
  | normal
  | esc (e : Char)
  | params (pre : List Char)
  | inter (pre : List Char)
deriving Repr, DecidableEq

/-- One-pass scanner equivalent to `replace_all` of the CSI regex
ESC `[` params* intermediates* final with the empty string: the three
character classes are pairwise disjoint and a match must start with ESC, so
no backtracking is needed and after a failed attempt scanning resumes at
the failing character (the only character inside a failed attempt that can
start a new match). -/
def stripCsiGo : CsiSt → List Char → List Char
  | .normal, [] => []
  | .normal, c :: rest =>
    if c.toNat = 27 then stripCsiGo (.esc c) rest
    else c :: stripCsiGo .normal rest
  | .esc e, [] => [e]
  | .esc e, c :: rest =>
    if c = '[' then stripCsiGo (.params [e, c]) rest
    else if c.toNat = 27 then e :: stripCsiGo (.esc c) rest
    else e :: c :: stripCsiGo .normal rest
  | .params pre, [] => pre
  | .params pre, c :: rest =>
    if isCsiParamChar c then stripCsiGo (.params (pre ++ [c])) rest
    else if isCsiInterChar c then stripCsiGo (.inter (pre ++ [c])) rest
    else if isCsiFinalChar c then stripCsiGo .normal rest
    else if c.toNat = 27 then pre ++ stripCsiGo (.esc c) rest
    else pre ++ c :: stripCsiGo .normal rest
  | .inter pre, [] => pre
  | .inter pre, c :: rest =>
    if isCsiInterChar c then stripCsiGo (.inter (pre ++ [c])) rest
    else if isCsiFinalChar c then stripCsiGo .normal rest
    else if c.toNat = 27 then pre ++ stripCsiGo (.esc c) rest
    else pre ++ c :: stripCsiGo .normal rest

/-- Strip CSI escape sequences, modelling `re.replace_all(s, "")`
(sanitize.rs lines 9-14). -/
def stripCsiNormal (l : List Char) : List Char := stripCsiGo .normal l

/-- Model of `sanitize_for_terminal` (sanitize.rs): strip CSI escape
sequences, drop remaining control characters and DEL, map newline, carriage
return and tab to spaces, trim surrounding whitespace, and truncate to 200
characters. (`Char.isWhitespace` and per-char uppercasing approximate
Rust's Unicode handling on the ASCII range.) -/
def sanitizeForTerminal (s : String) : String :=
  let noAnsi := stripCsiNormal s.data
  let cleaned := noAnsi.filter (fun c => (32 ≤ c.toNat && c.toNat ≠ 127) || c == ' ')
  let collapsed := cleaned.map (fun c =>
    if c = '\n' || c = '\r' || c = '\t' then ' ' else c)
  let trimmed := ((collapsed.dropWhile Char.isWhitespace).reverse.dropWhile
    Char.isWhitespace).reverse
  ⟨trimmed.take 200⟩

/-- Model of `Feed` (config.rs lines 6-9). -/
structure Feed where
  name : String
  url : String
deriving Repr, DecidableEq

/-- Header label built by `news_menu` (mod.rs lines 43-45):
`"== {UPPERCASED SOURCE NAME} == ({count} entries)"` with the name
sanitized. -/
def headerLabel (source : String) (count : Nat) : String :=
  "== " ++ sanitizeForTerminal (asciiUpper source) ++ " == (" ++ toString count ++ " entries)"

/-- Entry label built by `news_menu` (mod.rs lines 48-55); the console
styling around "[NEW]" is modelled as the plain marker text. -/
def storyLabel (st : Story) : String :=
  if st.is_new then "  - [NEW] " ++ sanitizeForTerminal st.title
  else "  - " ++ sanitizeForTerminal st.title

/-- One insertion into the grouping map
(`by_source.entry(s.source).or_default().push(s)`, mod.rs lines 28-30),
modelled as an association list keyed by source. -/
def groupInsert (m : List (String × List Story)) (st : Story) :
    List (String × List Story) :=
  match m with
  | [] => [(st.source, [st])]
  | (k, v) :: rest =>
    if k = st.source then (k, v ++ [st]) :: rest
    else (k, v) :: groupInsert rest st

/-- The grouping map of `news_menu` (mod.rs lines 27-30). The association
list's order (first appearance of each source) stands in for the hash map's
implementation-defined iteration order. -/
def groupBySource (stories : List Story) : List (String × List Story) :=
  stories.foldl groupInsert []

/-- Model of `by_source.get(source)`. -/
def groupLookup (m : List (String × List Story)) (s : String) : Option (List Story) :=
  match m.find? (fun p => p.1 == s) with
  | some p => some p.2
  | none => none

/-- Model of the `Item` enum local to `news_menu` (mod.rs line 33). -/
inductive MenuItem where
  | header (source : String)
  | story (source : String) (idx : Nat)
deriving Repr, DecidableEq

/-- The four accumulators of `news_menu`'s label-building phase:
`labels`, `index_map`, `header_indices` and the `seen` set of configured
source names already emitted. -/
structure MenuAcc where
  labels : List String
  indexMap : List MenuItem
  headerIndices : List Nat
  seen : List String
deriving Repr, DecidableEq

/-- Push one entry label and its index-map item (mod.rs lines 48-57). -/
def emitEntryStep (source : String) (a : MenuAcc) (p : Nat × Story) : MenuAcc :=
  { a with
    labels := a.labels ++ [storyLabel p.2]
    indexMap := a.indexMap ++ [MenuItem.story source p.1] }

/-- Emit one source block (mod.rs lines 44-57 and 66-78): record the header
row index, push the header label and item, then push up to 10 entry labels
and items. -/
def emitSourceBlock (acc : MenuAcc) (source : String) (items : List Story) : MenuAcc :=
  let acc1 : MenuAcc :=
    { acc with
      headerIndices := acc.headerIndices ++ [acc.labels.length]
      labels := acc.labels ++ [headerLabel source items.length]
      indexMap := acc.indexMap ++ [MenuItem.header source] }
  (items.take 10).enum.foldl (emitEntryStep source) acc1

/-- One iteration of the configured-order loop of `news_menu`
(mod.rs lines 38-59): when the feed's name has grouped stories, mark it
seen and emit its block. -/
def configStep (groups : List (String × List Story)) (a : MenuAcc) (f : Feed) : MenuAcc :=
  match groupLookup groups f.name with
  | some items =>
    emitSourceBlock
      { a with seen := if a.seen.contains f.name then a.seen else a.seen ++ [f.name] }
      f.name items
  | none => a

/-- The configured-order loop of `news_menu` (mod.rs lines 38-59). -/
def newsMenuConfigLoop (feeds : List Feed) (groups : List (String × List Story))
    (acc : MenuAcc) : MenuAcc :=
  feeds.foldl (configStep groups) acc

/-- One iteration of the defensive leftover loop of `news_menu`
(mod.rs lines 62-79): emit a block for a grouped source not already seen. -/
def leftoverStep (a : MenuAcc) (p : String × List Story) : MenuAcc :=
  if a.seen.contains p.1 then a else emitSourceBlock a p.1 p.2

/-- The defensive leftover loop of `news_menu` (mod.rs lines 62-79). -/
def newsMenuLeftoverLoop (groups : List (String × List Story)) (acc : MenuAcc) : MenuAcc :=
  groups.foldl leftoverStep acc

/-- The complete label-building phase of `news_menu` (mod.rs lines 24-79). -/
def newsMenuBuild (feeds : List Feed) (stories : List Story) : MenuAcc :=
  let groups := groupBySource stories
  newsMenuLeftoverLoop groups (newsMenuConfigLoop feeds groups ⟨[], [], [], []⟩)

/-- The header labels in emission order, read back through
`header_indices`. -/
def headersOf (m : MenuAcc) : List String :=
  m.headerIndices.map (fun i => m.labels.getD i "")

/-- Declarative source order, following the spec's words: configured names
with fetched data in configured order, then sources present in the data but
absent from configuration. -/
def menuSourceOrder (feeds : List Feed) (stories : List Story) : List String :=
  let groups := groupBySource stories
  (feeds.map (fun f => f.name)).filter (fun n => (groupLookup groups n).isSome)
    ++ (groups.filter (fun p => !((feeds.map (fun f => f.name)).contains p.1))).map
        (fun p => p.1)

/-- The labels of one source block: header label then up to 10 entry
labels. -/
def blockLabelsOf (n : String) (items : List Story) : List String :=
  headerLabel n items.length :: (items.take 10).map storyLabel

/-- Declarative labels for one source block, by grouped lookup. -/
def blockLabels (groups : List (String × List Story)) (n : String) : List String :=
  match groupLookup groups n with
  | some items => blockLabelsOf n items
  | none => []

/-- Declarative form of the top-level label list, built from the spec's
words: one block per source in `menuSourceOrder`. -/
def newsMenuLabelsSpec (feeds : List Feed) (stories : List Story) : List String :=
  (menuSourceOrder feeds stories).flatMap (blockLabels (groupBySource stories))

/-- Entry label built by `source_menu` (mod.rs lines 110-116). -/
def sourceMenuLabel (st : Story) : String :=
  if st.is_new then "[NEW] " ++ sanitizeForTerminal st.title
  else sanitizeForTerminal st.title

/-- The label list of the single-source drill-down menu (mod.rs lines
108-117): one label per story, with no cap. -/
def sourceMenuLabels (entries : List Story) : List String :=
  entries.map sourceMenuLabel

/-- Configured feeds [A, B] for the grouping-order scenario. -/
def demoFeeds : List Feed := [⟨"A", "https://a.example/feed"⟩, ⟨"B", "https://b.example/feed"⟩]

/-- Fetched stories arriving from source B first, then source A. -/
def demoStoriesBA : List Story :=
  [⟨"tb", "https://b.example/s", "B", false⟩,
   ⟨"ta", "https://a.example/s", "A", false⟩]

/-- The empty seen-store (`SeenStories::default()`). -/
def emptyHistory : SeenStories := ⟨[]⟩

/-- A feed whose entries are produced with links in descending order, so the
feed's production order differs from link-sorted order. -/
def demoProdEntries : List FeedEntry :=
  [⟨some "later", [⟨"https://z.example/2", none⟩]⟩,
   ⟨some "earlier", [⟨"https://z.example/1", none⟩]⟩]

/-- The navigation keys that keep the `arrow_select` loop running
(ui.rs lines 204-256); `other` stands for the ignored wildcard arm. -/
inductive NavKey where
  | arrowUp
  | arrowDown
  | home
  | endKey
  | pageUp
  | pageDown
  | tab
  | other
deriving Repr, DecidableEq

/-- The mutable state of `arrow_select`: the selection `sel` and the
viewport top `top` (ui.rs lines 165-166). -/
structure NavState where
  sel : Nat
  top : Nat
deriving Repr, DecidableEq

/-- Initial state of `arrow_select` (ui.rs lines 165-166):
`sel = default.unwrap_or(0).min(len - 1)`, `top = 0`. -/
def navInit (default : Option Nat) (len : Nat) : NavState :=
  ⟨(default.getD 0).min (len - 1), 0⟩

/-- The visible-row computation of one render (ui.rs lines 174-183):
terminal rows minus reserved lines, at least 3, at most the row count. -/
def maxVisible (rows : Nat) (hasHeader : Bool) (len : Nat) : Nat :=
  let reserved := 2 + (if hasHeader then 1 else 0)
  let mv := rows - reserved
  let mv := if mv < 3 then 3 else mv
  if mv > len then len else mv

/-- The keep-selection-in-viewport adjustment of one render
(ui.rs lines 185-192). -/
def adjustTop (mv : Nat) (st : NavState) : NavState :=
  let t1 := if st.sel < st.top then st.sel else st.top
  let t2 := if st.sel ≥ t1 + mv then st.sel + 1 - mv else t1
  ⟨st.sel, t2⟩

/-- The header scan of the Tab arm (ui.rs lines 234-241): the first index
greater than `sel`, else the fallback (the first header index). -/
def scanHeaderTarget (sel fallback : Nat) : List Nat → Nat
  | [] => fallback
  | i :: rest => if i > sel then i else scanHeaderTarget sel fallback rest

/-- The full Tab arm (ui.rs lines 231-245): with an absent or empty header
list the selection is unchanged, otherwise the scanned target clamped to
the last row. -/
def tabTarget (len : Nat) (hidx : Option (List Nat)) (sel : Nat) : Nat :=
  match hidx with
  | none => sel
  | some [] => sel
  | some (h :: t) => (scanHeaderTarget sel h (h :: t)).min (len - 1)

/-- The selection update of one key press in `arrow_select`
(ui.rs lines 204-256). -/
def keyMove (len : Nat) (hidx : Option (List Nat)) (mv : Nat) (sel : Nat) :
    NavKey → Nat
  | .arrowUp => if sel > 0 then sel - 1 else sel
  | .arrowDown => if sel + 1 < len then sel + 1 else sel
  | .home => 0
  | .endKey => if len ≠ 0 then len - 1 else sel
  | .pageUp => sel - (max (mv - 1) 1)
  | .pageDown => min (sel + max (mv - 1) 1) (len - 1)
  | .tab => tabTarget len hidx sel
  | .other => sel

/-- One loop iteration of `arrow_select`: render (recompute the visible
count from that render's terminal rows and adjust the viewport), then apply
the key. -/
def navStep (len : Nat) (hasHeader : Bool) (hidx : Option (List Nat))
    (st : NavState) (ev : Nat × NavKey) : NavState :=
  let mv := maxVisible ev.1 hasHeader len
  let st1 := adjustTop mv st
  ⟨keyMove len hidx mv st1.sel ev.2, st1.top⟩

/-- The visible-count and adjusted state at every render of a run of
`arrow_select`, one per consumed event (terminal rows at that render paired
with the key then pressed). -/
def navRenders (len : Nat) (hasHeader : Bool) (hidx : Option (List Nat)) :
    NavState → List (Nat × NavKey) → List (Nat × NavState)
  | _, [] => []
  | st, ev :: rest =>
    let mv := maxVisible ev.1 hasHeader len
    let st1 := adjustTop mv st
    (mv, st1) :: navRenders len hasHeader hidx ⟨keyMove len hidx mv st1.sel ev.2, st1.top⟩ rest

/-- The menu outcomes of `ui.rs` (`MenuChoice`, lines 5-9). -/
inductive MenuChoice where
  | back
  | quit
  | index (i : Nat)
deriving Repr, DecidableEq

/-- Model of `str::eq_ignore_ascii_case`. -/
def eqIgnoreAsciiCase (a b : String) : Bool :=
  a.data.map Char.toLower == b.data.map Char.toLower

/-- Model of `str::trim` (ASCII-whitespace approximation of Rust's Unicode
trim). -/
def trimWs (s : String) : String :=
  ⟨((s.data.dropWhile Char.isWhitespace).reverse.dropWhile Char.isWhitespace).reverse⟩

/-- Accumulate decimal digits; fails on a non-digit. -/
def digitsToNat (acc : Nat) : List Char → Option Nat
  | [] => some acc
  | c :: cs => if c.isDigit then digitsToNat (acc * 10 + (c.toNat - 48)) cs else none

/-- Model of `str::parse::<usize>()`: an optional leading '+', at least one
digit, value below 2^64 (64-bit usize overflow is a parse error). -/
def parseUsize (s : String) : Option Nat :=
  let cs := match s.data with
    | '+' :: rest => rest
    | l => l
  match cs with
  | [] => none
  | _ =>
    match digitsToNat 0 cs with
    | some n => if n < 2 ^ 64 then some n else none
    | none => none

/-- Model of `parse_selection` (ui.rs lines 134-155). -/
def parseSelection (input : String) (numItems : Nat) (default : Option Nat) :
    Except String MenuChoice :=
  let s := trimWs input
  if s.data = [] then
    match default with
    | some d => Except.ok (MenuChoice.index d)
    | none => Except.error "no selection"
  else if eqIgnoreAsciiCase s "q" then Except.ok MenuChoice.quit
  else if eqIgnoreAsciiCase s "b" then Except.ok MenuChoice.back
  else
    match parseUsize s with
    | none => Except.error "invalid selection"
    | some idx =>
      if idx = 0 ∨ idx > numItems then Except.error "out of range"
      else Except.ok (MenuChoice.index (idx - 1))

/-- The menu outcomes `news_menu`'s match actually covers (mod.rs lines
89-99 list only the `Back` and `Index` arms). -/
inductive NMChoice where
  | back
  | index (i : Nat)
deriving Repr, DecidableEq

/-- The `news_menu` orchestrator loop (mod.rs lines 81-103) over a
transcript of prompt outcomes: `prompt_index(...)?` propagates an error out
of the loop, `Back` breaks, and an index selection continues the loop (the
open-url/submenu side effects are immaterial to control flow). An exhausted
transcript models the session simply continuing. -/
def newsMenuLoop : List (Except String NMChoice) → Except String Unit
  | [] => Except.ok ()
  | Except.error e :: _ => Except.error e
  | Except.ok NMChoice.back :: _ => Except.ok ()
  | Except.ok (NMChoice.index _) :: rest => newsMenuLoop rest

/-- What the main-menu loop does with one resolved choice. -/
inductive MainDisposition where
  | leaveLoop
  | runNews
  | keepLooping
deriving Repr, DecidableEq

/-- Model of the `match sel` in `main` (main.rs lines 43-54): `Back` and
`Index(1)` break the loop, `Index(0)` runs the news flow, and everything
else — including `Quit` — falls into the `_ => {}` arm and loops again. -/
def mainMenuStep : MenuChoice → MainDisposition
  | MenuChoice.back => MainDisposition.leaveLoop
  | MenuChoice.index 0 => MainDisposition.runNews
  | MenuChoice.index 1 => MainDisposition.leaveLoop
  | MenuChoice.quit => MainDisposition.keepLooping
  | MenuChoice.index _ => MainDisposition.keepLooping

/-- Which menu outcomes the `match` in `news_menu` (mod.rs lines 89-100)
has arms for: only `Back` and `Index` — there is no `Quit` arm. -/
def newsMenuHandles : MenuChoice → Bool
  | MenuChoice.back => true
  | MenuChoice.index _ => true
  | MenuChoice.quit => false

/-- Model of `SeenStories::load` (history.rs lines 12-24) over an abstract
filesystem state: `hasPath` is whether `history_file_path()` produced a
path, `isFile` whether that path names an existing file, `readResult` the
outcome of `fs::read_to_string`, and `parsed` the outcome of
`serde_json::from_str` on the contents (the JSON codec is external to the
repository). Every failure path falls through to the default empty set. -/
def seenLoad (hasPath : Bool) (isFile : Bool) (readResult : Option String)
    (parsed : String → Option SeenStories) : SeenStories :=
  if hasPath then
    if isFile then
      match readResult with
      | some contents =>
        match parsed contents with
        | some seen => seen
        | none => ⟨[]⟩
      | none => ⟨[]⟩
    else ⟨[]⟩
  else ⟨[]⟩

end NewsCli

namespace NewsCli

theorem dedupByLinkAux_sublist :
    ∀ (a : Story) (xs : List Story), List.Sublist (dedupByLinkAux a xs) (a :: xs)
  | _, [] => List.Sublist.refl _
  | a, b :: rest => by
    rw [dedupByLinkAux]
    split
    · exact (dedupByLinkAux_sublist a rest).trans
        ((List.sublist_cons_self b rest).cons_cons a)
    · exact (dedupByLinkAux_sublist b rest).cons_cons a

theorem dedupByLink_sublist (l : List Story) : List.Sublist (dedupByLink l) l := by
  cases l with
  | nil => exact List.Sublist.refl _
  | cons a rest => exact dedupByLinkAux_sublist a rest

theorem dedupByLinkAux_link_mem :
    ∀ (a : Story) (xs : List Story), ∀ s ∈ a :: xs, ∃ t ∈ dedupByLinkAux a xs, t.link = s.link
  | a, [], s, hs => by
    have h : s = a := List.mem_singleton.1 hs
    exact ⟨a, List.mem_singleton_self a, (congrArg Story.link h).symm⟩
  | a, b :: rest, s, hs => by
    rw [dedupByLinkAux]
    split
    · rename_i heq
      rcases List.mem_cons.1 hs with h | hs₂
      · obtain ⟨t, ht, hlink⟩ :=
          dedupByLinkAux_link_mem a rest a (List.mem_cons_self a rest)
        exact ⟨t, ht, hlink.trans (congrArg Story.link h).symm⟩
      · rcases List.mem_cons.1 hs₂ with h | hs₃
        · obtain ⟨t, ht, hlink⟩ :=
            dedupByLinkAux_link_mem a rest a (List.mem_cons_self a rest)
          exact ⟨t, ht, (hlink.trans heq).trans (congrArg Story.link h).symm⟩
        · exact dedupByLinkAux_link_mem a rest s (List.mem_cons_of_mem a hs₃)
    · rcases List.mem_cons.1 hs with h | hs₂
      · exact ⟨a, List.mem_cons_self _ _, (congrArg Story.link h).symm⟩
      · obtain ⟨t, ht, hlink⟩ := dedupByLinkAux_link_mem b rest s hs₂
        exact ⟨t, List.mem_cons_of_mem a ht, hlink⟩

theorem dedupByLink_link_mem (l : List Story) :
    ∀ s ∈ l, ∃ t ∈ dedupByLink l, t.link = s.link := by
  cases l with
  | nil => intro s hs; exact absurd hs (List.not_mem_nil s)
  | cons a rest => exact dedupByLinkAux_link_mem a rest

theorem dedupByLinkAux_head :
    ∀ (a : Story) (xs : List Story), ∃ tl, dedupByLinkAux a xs = a :: tl
  | _, [] => ⟨[], rfl⟩
  | a, b :: rest => by
    rw [dedupByLinkAux]
    split
    · exact dedupByLinkAux_head a rest
    · exact ⟨dedupByLinkAux b rest, rfl⟩

theorem dedupByLinkAux_chain' :
    ∀ (a : Story) (xs : List Story),
      (dedupByLinkAux a xs).Chain' (fun x y => x.link ≠ y.link)
  | a, [] => List.chain'_singleton a
  | a, b :: rest => by
    rw [dedupByLinkAux]
    split
    · exact dedupByLinkAux_chain' a rest
    · rename_i hne
      obtain ⟨tl, htl⟩ := dedupByLinkAux_head b rest
      rw [htl]
      exact List.chain'_cons.2 ⟨hne, htl ▸ dedupByLinkAux_chain' b rest⟩

theorem dedupByLink_chain' (l : List Story) :
    (dedupByLink l).Chain' (fun x y => x.link ≠ y.link) := by
  cases l with
  | nil => exact List.chain'_nil
  | cons a rest => exact dedupByLinkAux_chain' a rest

theorem dedupByLinkAux_eq_self :
    ∀ (a : Story) (xs : List Story),
      (a :: xs).Chain' (fun x y => x.link ≠ y.link) → dedupByLinkAux a xs = a :: xs
  | _, [], _ => rfl
  | a, b :: rest, h => by
    rw [dedupByLinkAux, if_neg (List.chain'_cons.1 h).1]
    exact congrArg (a :: ·) (dedupByLinkAux_eq_self b rest (List.chain'_cons.1 h).2)

theorem dedupByLink_eq_self (l : List Story)
    (h : l.Chain' (fun x y => x.link ≠ y.link)) : dedupByLink l = l := by
  cases l with
  | nil => rfl
  | cons a rest => exact dedupByLinkAux_eq_self a rest h

theorem sortStories_sorted (l : List Story) : List.Sorted linkLe (sortStories l) :=
  List.sorted_insertionSort linkLe l

theorem dedupByLink_sorted {l : List Story} (h : List.Sorted linkLe l) :
    List.Sorted linkLe (dedupByLink l) :=
  List.Pairwise.sublist (dedupByLink_sublist l) h

theorem chain'_lt_of_sorted_ne :
    ∀ l : List Story, List.Sorted linkLe l →
      l.Chain' (fun x y => x.link ≠ y.link) →
      l.Chain' (fun x y => x.link < y.link)
  | [], _, _ => List.chain'_nil
  | [a], _, _ => List.chain'_singleton a
  | a :: b :: rest, hs, hc => by
    have h1 := List.sorted_cons.1 hs
    refine List.chain'_cons.2
      ⟨?_, chain'_lt_of_sorted_ne (b :: rest) h1.2 (List.chain'_cons.1 hc).2⟩
    exact lt_of_le_of_ne (h1.1 b (List.mem_cons_self b rest)) (List.chain'_cons.1 hc).1

theorem dedupByLinkAux_find? :
    ∀ (a : Story) (xs : List Story), List.Sorted linkLe (a :: xs) →
      ∀ t ∈ dedupByLinkAux a xs,
        (a :: xs).find? (fun s => s.link == t.link) = some t
  | a, [], _, t, ht => by
    have h : t = a := List.mem_singleton.1 ht
    subst h
    exact List.find?_cons_of_pos _ (by simp)
  | a, b :: rest, hs, t, ht => by
    have h1 := List.sorted_cons.1 hs
    have h2 := List.sorted_cons.1 h1.2
    rw [dedupByLinkAux] at ht
    by_cases heq : a.link = b.link
    · rw [if_pos heq] at ht
      have hsar : List.Sorted linkLe (a :: rest) :=
        List.sorted_cons.2 ⟨fun c hc => h1.1 c (List.mem_cons_of_mem b hc), h2.2⟩
      have ih := dedupByLinkAux_find? a rest hsar t ht
      by_cases hpa : a.link = t.link
      · have hfc : (a :: rest).find? (fun s => s.link == t.link) = some a :=
          List.find?_cons_of_pos rest (by simp [hpa])
        have hta : t = a := (Option.some.inj (hfc ▸ ih)).symm
        subst hta
        exact List.find?_cons_of_pos _ (by simp [hpa])
      · have hfc : (a :: rest).find? (fun s => s.link == t.link)
            = rest.find? (fun s => s.link == t.link) :=
          List.find?_cons_of_neg rest (by simpa using hpa)
        have hrest : rest.find? (fun s => s.link == t.link) = some t := hfc ▸ ih
        have hpb : ¬ b.link = t.link := fun hb => hpa (heq.trans hb)
        have hfc1 : (a :: b :: rest).find? (fun s => s.link == t.link)
            = (b :: rest).find? (fun s => s.link == t.link) :=
          List.find?_cons_of_neg _ (by simpa using hpa)
        have hfc2 : (b :: rest).find? (fun s => s.link == t.link)
            = rest.find? (fun s => s.link == t.link) :=
          List.find?_cons_of_neg rest (by simpa using hpb)
        rw [hfc1, hfc2]
        exact hrest
    · rw [if_neg heq] at ht
      rcases List.mem_cons.1 ht with h | ht₂
      · subst h
        exact List.find?_cons_of_pos _ (by simp)
      · have ih := dedupByLinkAux_find? b rest h1.2 t ht₂
        have htmem : t ∈ b :: rest := (dedupByLinkAux_sublist b rest).mem ht₂
        have hbt : b.link ≤ t.link := by
          rcases List.mem_cons.1 htmem with h | htr
          · exact h ▸ le_refl _
          · exact h2.1 t htr
        have halt : a.link < t.link :=
          lt_of_lt_of_le (lt_of_le_of_ne (h1.1 b (List.mem_cons_self b rest)) heq) hbt
        have hfc : (a :: b :: rest).find? (fun s => s.link == t.link)
            = (b :: rest).find? (fun s => s.link == t.link) :=
          List.find?_cons_of_neg _ (by simpa using ne_of_lt halt)
        rw [hfc]
        exact ih

/-- C1: in `collect_stories`, after the sort-by-link and dedup-by-link steps
(fetch.rs lines 78-82): no two output stories share a link; every input link
is represented exactly once in the output; the representative kept for each
link is the first occurrence, in sort order, of that link; and re-running
the sort-then-dedup step on the output leaves it unchanged. -/
theorem collect_dedup_by_link_spec (l : List Story) :
    ((collectDedup l).Pairwise (fun x y => x.link ≠ y.link))
    ∧ (∀ s ∈ l, ∃ t ∈ collectDedup l, t.link = s.link)
    ∧ (∀ t ∈ collectDedup l, (sortStories l).find? (fun s => s.link == t.link) = some t)
    ∧ collectDedup (collectDedup l) = collectDedup l := by
  have hsorted : List.Sorted linkLe (sortStories l) := sortStories_sorted l
  have hdsorted : List.Sorted linkLe (collectDedup l) := dedupByLink_sorted hsorted
  have hchain : (collectDedup l).Chain' (fun x y => x.link ≠ y.link) :=
    dedupByLink_chain' (sortStories l)
  refine ⟨?_, ?_, ?_, ?_⟩
  · exact (List.chain'_iff_pairwise.1
      (chain'_lt_of_sorted_ne _ hdsorted hchain)).imp fun h => ne_of_lt h
  · intro s hs
    exact dedupByLink_link_mem (sortStories l) s ((List.mem_insertionSort linkLe).2 hs)
  · intro t ht
    cases hlist : sortStories l with
    | nil =>
      rw [collectDedup, hlist] at ht
      exact absurd ht (List.not_mem_nil t)
    | cons a rest =>
      rw [collectDedup, hlist] at ht
      exact hlist ▸ dedupByLinkAux_find? a rest (hlist ▸ hsorted) t ht
  · rw [collectDedup, show sortStories (collectDedup l) = collectDedup l from
      List.Sorted.insertionSort_eq hdsorted]
    exact dedupByLink_eq_self _ hchain

/-- Instantiation of the dedup theorem at a concrete story list containing a
repeated link. -/
theorem collect_dedup_by_link_spec_inst :
    ((collectDedup demoStories).Pairwise (fun x y => x.link ≠ y.link))
    ∧ (∀ s ∈ demoStories, ∃ t ∈ collectDedup demoStories, t.link = s.link)
    ∧ (∀ t ∈ collectDedup demoStories,
        (sortStories demoStories).find? (fun s => s.link == t.link) = some t)
    ∧ collectDedup (collectDedup demoStories) = collectDedup demoStories :=
  collect_dedup_by_link_spec demoStories

/-- C2: the `normalize_link` contract (fetch.rs lines 122-135): a blank
candidate produces nothing; a candidate that parses as an absolute URL is
used as parsed; otherwise it is resolved against the base when present and
produces nothing when resolution fails or no base exists; the result is
kept only for the schemes http and https; and the four determinism
examples, with mailto and javascript schemes also rejected. -/
theorem normalize_link_spec :
    (∀ c b, isBlank c = true → normalizeLink c b = none)
    ∧ (∀ c b u, isBlank c = false → urlParse c = some u →
        normalizeLink c b
          = (if u.scheme = "http" ∨ u.scheme = "https" then some (urlToString u) else none))
    ∧ (∀ c, isBlank c = false → urlParse c = none → normalizeLink c none = none)
    ∧ (∀ c b, isBlank c = false → urlParse c = none → urlJoin b c = none →
        normalizeLink c (some b) = none)
    ∧ (∀ c b u, isBlank c = false → urlParse c = none → urlJoin b c = some u →
        normalizeLink c (some b)
          = (if u.scheme = "http" ∨ u.scheme = "https" then some (urlToString u) else none))
    ∧ normalizeLink "/a/b" (urlParse "https://x.com/p/") = some "https://x.com/a/b"
    ∧ (∀ b, normalizeLink "https://y.com/z" b = some "https://y.com/z")
    ∧ normalizeLink "ftp://y.com/z" none = none
    ∧ (∀ b, normalizeLink "" (some b) = none)
    ∧ normalizeLink "mailto:a@b.c" none = none
    ∧ normalizeLink "javascript:alert(1)" none = none := by
  refine ⟨?_, ?_, ?_, ?_, ?_, ?_, ?_, ?_, ?_, ?_, ?_⟩
  · intro c b h
    simp [normalizeLink, h]
  · intro c b u hb hp
    simp [normalizeLink, resolveCandidate, hb, hp]
  · intro c hb hp
    simp [normalizeLink, resolveCandidate, hb, hp]
  · intro c b hb hp hj
    simp [normalizeLink, resolveCandidate, hb, hp, hj]
  · intro c b u hb hp hj
    simp [normalizeLink, resolveCandidate, hb, hp, hj]
  · decide
  · intro b
    have hp : urlParse "https://y.com/z" = some ⟨"https", true, "y.com", "/z"⟩ := by decide
    have hb : isBlank "https://y.com/z" = false := by decide
    simp [normalizeLink, resolveCandidate, hp, hb]
    decide
  · decide
  · intro b
    rfl
  · decide
  · decide

/-- Instantiation of the normalization theorem: a whitespace-only candidate
produces nothing. -/
theorem normalize_link_spec_inst : normalizeLink " " none = none :=
  normalize_link_spec.1 " " none (by decide)

/-- The is_new flag as computed by `push_entries` (fetch.rs lines 110-118):
every produced story carries `is_new = !history.is_seen(link)`. -/
theorem pushEntries_is_new (source : String) (base : Option ParsedUrl)
    (history : SeenStories) (entries : List FeedEntry) :
    ∀ st ∈ pushEntries source base history entries,
      st.is_new = !history.is_seen st.link := by
  intro st hst
  obtain ⟨e, _, hfe⟩ := List.mem_filterMap.1 hst
  cases hn : normalizeLink (entryRawLink e) base with
  | none => rw [hn] at hfe; exact absurd hfe (by simp)
  | some n =>
    rw [hn] at hfe
    have h := Option.some.inj hfe
    rw [← h]

/-- C3 (intended behaviour): every story surviving ingestion carries
`is_new = !seen_store.is_seen(link)` — the flag `push_entries` computes and
writes, although `model.rs` omits the field from `Story` — and the concrete
scenario: with link L1 seen, a fetch producing links L1 and L2 yields
`is_new = false` for L1 and `is_new = true` for L2. The pipeline takes the
store as a read-only value and never alters it. -/
theorem push_entries_is_new_intended :
    (∀ feeds history,
      ((collectStories feeds history).all
        (fun st => st.is_new == !history.is_seen st.link)) = true)
    ∧ pushEntries "A" none demoHistory demoEntries
        = [⟨"e1", "https://l1.example/a", "A", false⟩,
           ⟨"e2", "https://l2.example/b", "A", true⟩] := by
  refine ⟨?_, by decide⟩
  intro feeds history
  apply List.all_eq_true.2
  intro st hst
  have h1 : st ∈ sortStories (feeds.flatMap (fun f => pushEntries f.1 f.2.1 history f.2.2)) :=
    (dedupByLink_sublist _).mem hst
  have h2 : st ∈ feeds.flatMap (fun f => pushEntries f.1 f.2.1 history f.2.2) :=
    (List.mem_insertionSort linkLe).1 h1
  obtain ⟨f, _, hmem⟩ := List.mem_flatMap.1 h2
  simpa using pushEntries_is_new f.1 f.2.1 history f.2.2 st hmem

/-- C5 counterexample: a feed producing entries with links in descending
order; after ingestion the grouped sequence for the source is in ascending
link order, which is not the order the entries were produced. -/
theorem grouped_view_not_feed_order :
    groupLookup
        (groupBySource (collectStories [("A", none, demoProdEntries)] emptyHistory)) "A"
      = some [⟨"earlier", "https://z.example/1", "A", true⟩,
              ⟨"later", "https://z.example/2", "A", true⟩]
    ∧ pushEntries "A" none emptyHistory demoProdEntries
      = [⟨"later", "https://z.example/2", "A", true⟩,
         ⟨"earlier", "https://z.example/1", "A", true⟩]
    ∧ ([⟨"earlier", "https://z.example/1", "A", true⟩,
        ⟨"later", "https://z.example/2", "A", true⟩] : List Story)
      ≠ [⟨"later", "https://z.example/2", "A", true⟩,
         ⟨"earlier", "https://z.example/1", "A", true⟩] := by decide

/-- C8 counterexample: an invalid typed selection makes the `news_menu`
loop return the error through `?` — the session aborts with the error
instead of re-prompting (a re-prompt would have consumed the following
`Back` and finished cleanly). -/
theorem input_error_aborts_menu :
    newsMenuLoop [Except.error "invalid selection", Except.ok NMChoice.back]
      = Except.error "invalid selection"
    ∧ (Except.error "invalid selection" ≠ (Except.ok () : Except String Unit)) := by
  exact ⟨rfl, by simp⟩

/-- C8 amended: `parse_selection` (ui.rs lines 134-155) resolves empty
input to the default index or errors "no selection"; case-insensitive "q"
and "b" resolve to Quit and Back; other input is parsed as a 1-based
integer with "invalid selection" for non-numeric input and "out of range"
for 0 or beyond the row count; an input error does not resolve the menu —
and the `news_menu` loop propagates such an error through `?` rather than
re-prompting, so it aborts the menu session. -/
theorem parse_selection_amended :
    (∀ n input, (trimWs input).data = [] →
        parseSelection input n none = Except.error "no selection")
    ∧ (∀ n d input, (trimWs input).data = [] →
        parseSelection input n (some d) = Except.ok (MenuChoice.index d))
    ∧ (∀ n d input, (trimWs input).data ≠ [] →
        eqIgnoreAsciiCase (trimWs input) "q" = true →
        parseSelection input n d = Except.ok MenuChoice.quit)
    ∧ (∀ n d input, (trimWs input).data ≠ [] →
        eqIgnoreAsciiCase (trimWs input) "q" = false →
        eqIgnoreAsciiCase (trimWs input) "b" = true →
        parseSelection input n d = Except.ok MenuChoice.back)
    ∧ (∀ n d input, (trimWs input).data ≠ [] →
        eqIgnoreAsciiCase (trimWs input) "q" = false →
        eqIgnoreAsciiCase (trimWs input) "b" = false →
        parseUsize (trimWs input) = none →
        parseSelection input n d = Except.error "invalid selection")
    ∧ (∀ n d input idx, (trimWs input).data ≠ [] →
        eqIgnoreAsciiCase (trimWs input) "q" = false →
        eqIgnoreAsciiCase (trimWs input) "b" = false →
        parseUsize (trimWs input) = some idx →
        (idx = 0 ∨ idx > n) →
        parseSelection input n d = Except.error "out of range")
    ∧ (∀ n d input idx, (trimWs input).data ≠ [] →
        eqIgnoreAsciiCase (trimWs input) "q" = false →
        eqIgnoreAsciiCase (trimWs input) "b" = false →
        parseUsize (trimWs input) = some idx →
        ¬ (idx = 0 ∨ idx > n) →
        parseSelection input n d = Except.ok (MenuChoice.index (idx - 1)))
    ∧ (∀ e rest, newsMenuLoop (Except.error e :: rest) = Except.error e) := by
  refine ⟨?_, ?_, ?_, ?_, ?_, ?_, ?_, ?_⟩
  · intro n input h
    simp [parseSelection, h]
  · intro n d input h
    simp [parseSelection, h]
  · intro n d input hne hq
    simp [parseSelection, hne, hq]
  · intro n d input hne hq hb
    simp [parseSelection, hne, hq, hb]
  · intro n d input hne hq hb hp
    simp [parseSelection, hne, hq, hb, hp]
  · intro n d input idx hne hq hb hp hr
    simp [parseSelection, hne, hq, hb, hp, hr]
  · intro n d input idx hne hq hb hp hr
    simp [parseSelection, hne, hq, hb, hp, hr]
  · intro e rest
    rfl

/-- Instantiation of the amended selection-parsing theorem: the non-numeric
input "xyz" on a five-row menu with no default errors with
"invalid selection". -/
theorem parse_selection_amended_inst :
    parseSelection "xyz" 5 none = Except.error "invalid selection" :=
  parse_selection_amended.2.2.2.2.1 5 none "xyz" (by decide) (by decide) (by decide)
    (by decide)

/-- C9: evaluating the menu dispatch at the failing input: `Quit` at the
main menu falls into the wildcard arm and keeps looping instead of leaving
the loop (so the process does not exit), and the `news_menu` match has no
arm for `Quit` at all, while `Back` does leave the loop. -/
theorem quit_does_not_terminate :
    mainMenuStep MenuChoice.quit = MainDisposition.keepLooping
    ∧ mainMenuStep MenuChoice.quit ≠ MainDisposition.leaveLoop
    ∧ newsMenuHandles MenuChoice.quit = false
    ∧ mainMenuStep MenuChoice.back = MainDisposition.leaveLoop := by decide

theorem scanHeaderTarget_eq (sel fallback : Nat) :
    ∀ l : List Nat,
      scanHeaderTarget sel fallback l = (l.find? (fun i => decide (sel < i))).getD fallback
  | [] => rfl
  | i :: rest => by
    by_cases h : sel < i
    · rw [scanHeaderTarget, if_pos h, List.find?_cons_of_pos rest (by simpa using h)]
      rfl
    · rw [scanHeaderTarget, if_neg h, List.find?_cons_of_neg rest (by simpa using h)]
      exact scanHeaderTarget_eq sel fallback rest

/-- C7: with recorded header indices all within the row list, Tab moves the
selection to the first header index strictly greater than the current
selection, falling back to the first header index when none is greater;
with the header list absent or empty the selection is unchanged; and the
concrete examples: from selection 5 over headers [0, 12, 30] Tab reaches
12, from 31 it wraps to 0. -/
theorem tab_jump_spec :
    (∀ len hidx sel, (∀ i ∈ hidx, i < len) → hidx ≠ [] →
        tabTarget len (some hidx) sel
          = (hidx.find? (fun i => decide (sel < i))).getD (hidx.headD 0))
    ∧ (∀ len sel, tabTarget len none sel = sel)
    ∧ (∀ len sel, tabTarget len (some []) sel = sel)
    ∧ tabTarget 40 (some [0, 12, 30]) 5 = 12
    ∧ tabTarget 40 (some [0, 12, 30]) 31 = 0 := by
  refine ⟨?_, fun _ _ => rfl, fun _ _ => rfl, by decide, by decide⟩
  intro len hidx sel hbound hne
  match hidx, hne with
  | h :: t, _ =>
    rw [tabTarget, scanHeaderTarget_eq]
    have hres : ((h :: t).find? (fun i => decide (sel < i))).getD h < len := by
      cases hf : (h :: t).find? (fun i => decide (sel < i)) with
      | none => exact hbound h (List.mem_cons_self h t)
      | some j =>
        simpa [hf] using hbound j (List.mem_of_find?_eq_some hf)
    have hhd : (h :: t).headD 0 = h := rfl
    rw [hhd]
    exact Nat.min_eq_left (by omega)

/-- Instantiation of the Tab-jump theorem at the claim's header indices. -/
theorem tab_jump_spec_inst :
    tabTarget 40 (some [0, 12, 30]) 5
      = (([0, 12, 30] : List Nat).find? (fun i => decide (5 < i))).getD
          (([0, 12, 30] : List Nat).headD 0) :=
  tab_jump_spec.1 40 [0, 12, 30] 5 (by decide) (by decide)

theorem maxVisible_pos (rows : Nat) (hh : Bool) {len : Nat} (hlen : 0 < len) :
    1 ≤ maxVisible rows hh len := by
  simp only [maxVisible]
  split_ifs <;> omega

theorem adjustTop_spec (mv : Nat) (st : NavState) (hmv : 1 ≤ mv) :
    (adjustTop mv st).sel = st.sel
    ∧ (adjustTop mv st).top ≤ (adjustTop mv st).sel
    ∧ (adjustTop mv st).sel < (adjustTop mv st).top + mv := by
  refine ⟨rfl, ?_, ?_⟩ <;>
    (simp only [adjustTop]; split_ifs <;> omega)

theorem keyMove_lt (len : Nat) (hidx : Option (List Nat)) (mv sel : Nat)
    (hlen : 0 < len) (hsel : sel < len) : ∀ k, keyMove len hidx mv sel k < len := by
  intro k
  cases k with
  | arrowUp => simp only [keyMove]; split_ifs <;> omega
  | arrowDown => simp only [keyMove]; split_ifs <;> omega
  | home => simpa [keyMove] using hlen
  | endKey => simp only [keyMove]; split_ifs <;> omega
  | pageUp => simp only [keyMove]; omega
  | pageDown => simp only [keyMove]; omega
  | tab =>
    simp only [keyMove]
    cases hidx with
    | none => simpa [tabTarget] using hsel
    | some l =>
      cases l with
      | nil => simpa [tabTarget] using hsel
      | cons h t =>
        simp only [tabTarget]
        exact Nat.lt_of_le_of_lt (Nat.min_le_right _ _) (by omega)
  | other => simpa [keyMove] using hsel

theorem navRenders_inv (len : Nat) (hh : Bool) (hidx : Option (List Nat))
    (hlen : 0 < len) :
    ∀ (events : List (Nat × NavKey)) (st : NavState), st.sel < len →
      ∀ p ∈ navRenders len hh hidx st events,
        p.2.top ≤ p.2.sel ∧ p.2.sel < p.2.top + p.1 ∧ p.2.sel < len ∧ 1 ≤ p.1
  | [], _, _, p, hp => absurd hp (List.not_mem_nil p)
  | ev :: rest, st, hst, p, hp => by
    rw [navRenders] at hp
    have hmv : 1 ≤ maxVisible ev.1 hh len := maxVisible_pos ev.1 hh hlen
    have ha := adjustTop_spec (maxVisible ev.1 hh len) st hmv
    rcases List.mem_cons.1 hp with rfl | hp2
    · exact ⟨ha.2.1, ha.2.2, ha.1 ▸ hst, hmv⟩
    · exact navRenders_inv len hh hidx hlen rest _
        (keyMove_lt len hidx _ _ hlen (ha.1 ▸ hst) ev.2) p hp2

/-- C6: on a non-empty row list, absent a default the selection and
viewport top both start at 0, and at every render of the arrow-mode loop
(for any sequence of ArrowUp/ArrowDown/Home/End/PageUp/PageDown/Tab
operations and any terminal heights) the adjusted state satisfies
`0 ≤ top ≤ sel < top + visible` with `sel` within the rows and at least one
visible row; when the terminal-derived window W fits the list (N ≥ W), the
visible count equals W. -/
theorem arrow_select_viewport_invariant (len : Nat) (hh : Bool)
    (hidx : Option (List Nat)) (events : List (Nat × NavKey)) (hlen : 0 < len) :
    navInit none len = ⟨0, 0⟩
    ∧ (∀ p ∈ navRenders len hh hidx (navInit none len) events,
        p.2.top ≤ p.2.sel ∧ p.2.sel < p.2.top + p.1 ∧ p.2.sel < len ∧ 1 ≤ p.1)
    ∧ (∀ rows, max (rows - (2 + (if hh then 1 else 0))) 3 ≤ len →
        maxVisible rows hh len = max (rows - (2 + (if hh then 1 else 0))) 3) := by
  refine ⟨by simp [navInit], ?_, ?_⟩
  · exact navRenders_inv len hh hidx hlen events _ (by simp [navInit]; omega)
  · intro rows hW
    rw [Nat.max_def] at hW ⊢
    simp only [maxVisible]
    split_ifs at hW ⊢ <;> omega

/-- Instantiation of the viewport-invariant theorem: a five-row list on an
eight-row terminal, walking down past the window edge and tabbing. -/
theorem arrow_select_viewport_invariant_inst :
    navInit none 5 = ⟨0, 0⟩
    ∧ (∀ p ∈ navRenders 5 false (some [0, 3])
          (navInit none 5)
          [(8, NavKey.arrowDown), (8, NavKey.arrowDown), (8, NavKey.arrowDown),
           (8, NavKey.tab), (8, NavKey.pageDown), (8, NavKey.endKey)],
        p.2.top ≤ p.2.sel ∧ p.2.sel < p.2.top + p.1 ∧ p.2.sel < 5 ∧ 1 ≤ p.1)
    ∧ (∀ rows, max (rows - (2 + (if false then 1 else 0))) 3 ≤ 5 →
        maxVisible rows false 5 = max (rows - (2 + (if false then 1 else 0))) 3) :=
  arrow_select_viewport_invariant 5 false (some [0, 3])
    [(8, NavKey.arrowDown), (8, NavKey.arrowDown), (8, NavKey.arrowDown),
     (8, NavKey.tab), (8, NavKey.pageDown), (8, NavKey.endKey)] (by decide)

theorem groupLookup_nil (s : String) : groupLookup [] s = none := rfl

theorem groupLookup_cons (k : String) (v : List Story)
    (m : List (String × List Story)) (s : String) :
    groupLookup ((k, v) :: m) s = if k = s then some v else groupLookup m s := by
  by_cases h : k = s
  · simp [groupLookup, List.find?, h]
  · have hb : (k == s) = false := by simp [h]
    simp [groupLookup, List.find?, hb, h]

theorem groupInsert_lookup (st : Story) (s : String) :
    ∀ m : List (String × List Story),
      groupLookup (groupInsert m st) s
        = if s = st.source then some ((groupLookup m s).getD [] ++ [st])
          else groupLookup m s
  | [] => by
    by_cases h : s = st.source
    · subst h
      simp [groupInsert, groupLookup_cons, groupLookup_nil]
    · have h2 : ¬ st.source = s := fun hc => h hc.symm
      simp [groupInsert, groupLookup_cons, groupLookup_nil, h, h2]
  | (k, v) :: rest => by
    by_cases hk : k = st.source
    · rw [groupInsert, if_pos hk]
      by_cases hs : k = s
      · have hs2 : s = st.source := hk ▸ hs.symm
        rw [groupLookup_cons, if_pos hs, if_pos hs2, groupLookup_cons, if_pos hs]
        rfl
      · have hs2 : ¬ s = st.source := fun hc => hs (hk.trans hc.symm)
        rw [groupLookup_cons, if_neg hs, if_neg hs2, groupLookup_cons, if_neg hs]
    · rw [groupInsert, if_neg hk]
      by_cases hs : k = s
      · have hs2 : ¬ s = st.source := fun hc => hk (hs.trans hc)
        rw [groupLookup_cons, if_pos hs, if_neg hs2, groupLookup_cons, if_pos hs]
      · rw [groupLookup_cons, if_neg hs, groupInsert_lookup st s rest,
          groupLookup_cons, if_neg hs]

theorem groupBySource_foldl_some (s : String) :
    ∀ (l : List Story) (m : List (String × List Story)) (v : List Story),
      groupLookup m s = some v →
      groupLookup (l.foldl groupInsert m) s
        = some (v ++ l.filter (fun st => st.source == s))
  | [], _, _, hm => by simpa using hm
  | st :: l, m, v, hm => by
    rw [List.foldl_cons]
    by_cases h : s = st.source
    · have h2 : (st.source == s) = true := by simp [h]
      have hl : groupLookup (groupInsert m st) s = some (v ++ [st]) := by
        rw [groupInsert_lookup st s m, if_pos h, hm]
        rfl
      rw [groupBySource_foldl_some s l (groupInsert m st) (v ++ [st]) hl]
      simp [List.filter_cons, h2]
    · have h2 : (st.source == s) = false := by
        simp only [beq_eq_false_iff_ne, ne_eq]
        exact fun hc => h hc.symm
      have hl : groupLookup (groupInsert m st) s = some v := by
        rw [groupInsert_lookup st s m, if_neg h]
        exact hm
      rw [groupBySource_foldl_some s l (groupInsert m st) v hl]
      simp [List.filter_cons, h2]

theorem groupBySource_foldl_none (s : String) :
    ∀ (l : List Story) (m : List (String × List Story)),
      groupLookup m s = none →
      groupLookup (l.foldl groupInsert m) s
        = if l.filter (fun st => st.source == s) = [] then none
          else some (l.filter (fun st => st.source == s))
  | [], _, hm => by simpa using hm
  | st :: l, m, hm => by
    rw [List.foldl_cons]
    by_cases h : s = st.source
    · have h2 : (st.source == s) = true := by simp [h]
      have hl : groupLookup (groupInsert m st) s = some [st] := by
        rw [groupInsert_lookup st s m, if_pos h, hm]
        rfl
      rw [groupBySource_foldl_some s l (groupInsert m st) [st] hl]
      simp [List.filter_cons, h2]
    · have h2 : (st.source == s) = false := by
        simp only [beq_eq_false_iff_ne, ne_eq]
        exact fun hc => h hc.symm
      have hl : groupLookup (groupInsert m st) s = none := by
        rw [groupInsert_lookup st s m, if_neg h]
        exact hm
      rw [groupBySource_foldl_none s l (groupInsert m st) hl]
      simp [List.filter_cons, h2]

theorem emitEntry_foldl_labels (source : String) :
    ∀ (ps : List (Nat × Story)) (a : MenuAcc),
      (ps.foldl (emitEntryStep source) a).labels
        = a.labels ++ ps.map (fun p => storyLabel p.2)
  | [], a => by simp
  | p :: ps, a => by
    rw [List.foldl_cons, emitEntry_foldl_labels source ps]
    simp [emitEntryStep]

theorem enum_map_storyLabel (l : List Story) :
    l.enum.map (fun p => storyLabel p.2) = l.map storyLabel := by
  rw [show (fun p : Nat × Story => storyLabel p.2) = storyLabel ∘ Prod.snd from rfl,
    ← List.map_map, List.enum_map_snd]

theorem emitSourceBlock_labels (acc : MenuAcc) (s : String) (items : List Story) :
    (emitSourceBlock acc s items).labels = acc.labels ++ blockLabelsOf s items := by
  rw [emitSourceBlock]
  rw [emitEntry_foldl_labels]
  simp [blockLabelsOf, enum_map_storyLabel]

theorem emitEntry_foldl_seen (source : String) :
    ∀ (ps : List (Nat × Story)) (a : MenuAcc),
      (ps.foldl (emitEntryStep source) a).seen = a.seen
  | [], _ => rfl
  | p :: ps, a => by
    rw [List.foldl_cons, emitEntry_foldl_seen source ps]
    rfl

theorem emitSourceBlock_seen (acc : MenuAcc) (s : String) (items : List Story) :
    (emitSourceBlock acc s items).seen = acc.seen := by
  rw [emitSourceBlock, emitEntry_foldl_seen]

theorem configStep_labels (groups : List (String × List Story)) (a : MenuAcc) (f : Feed) :
    (configStep groups a f).labels = a.labels ++ blockLabels groups f.name := by
  cases hl : groupLookup groups f.name with
  | none => simp [configStep, hl, blockLabels]
  | some items =>
    simp [configStep, hl, blockLabels, blockLabelsOf, emitSourceBlock_labels]

theorem config_labels (groups : List (String × List Story)) :
    ∀ (feeds : List Feed) (a : MenuAcc),
      (newsMenuConfigLoop feeds groups a).labels
        = a.labels ++ feeds.flatMap (fun f => blockLabels groups f.name)
  | [], a => by simp [newsMenuConfigLoop]
  | f :: fs, a => by
    rw [newsMenuConfigLoop, List.foldl_cons]
    have ih := config_labels groups fs (configStep groups a f)
    rw [newsMenuConfigLoop] at ih
    rw [ih, configStep_labels]
    simp

theorem configStep_seen_mem (groups : List (String × List Story)) (a : MenuAcc)
    (f : Feed) (n : String) :
    n ∈ (configStep groups a f).seen
      ↔ n ∈ a.seen ∨ (f.name = n ∧ (groupLookup groups f.name).isSome) := by
  cases hl : groupLookup groups f.name with
  | none => simp [configStep, hl]
  | some items =>
    simp only [configStep, hl, emitSourceBlock_seen, Option.isSome_some, and_true]
    by_cases hc : a.seen.contains f.name = true
    · rw [if_pos hc]
      have hmem : f.name ∈ a.seen := by
        simpa using hc
      constructor
      · exact Or.inl
      · rintro (h | h)
        · exact h
        · exact h ▸ hmem
    · rw [if_neg hc]
      simp [List.mem_append, eq_comm]

theorem config_seen_mem (groups : List (String × List Story)) :
    ∀ (feeds : List Feed) (a : MenuAcc) (n : String),
      n ∈ (newsMenuConfigLoop feeds groups a).seen
        ↔ n ∈ a.seen ∨ ∃ f ∈ feeds, f.name = n ∧ (groupLookup groups f.name).isSome
  | [], a, n => by simp [newsMenuConfigLoop]
  | f :: fs, a, n => by
    rw [newsMenuConfigLoop, List.foldl_cons]
    have ih := config_seen_mem groups fs (configStep groups a f) n
    rw [newsMenuConfigLoop] at ih
    rw [ih, configStep_seen_mem]
    constructor
    · rintro ((h | h) | ⟨g, hg, hgn⟩)
      · exact Or.inl h
      · exact Or.inr ⟨f, List.mem_cons_self f fs, h⟩
      · exact Or.inr ⟨g, List.mem_cons_of_mem f hg, hgn⟩
    · rintro (h | ⟨g, hg, hgn⟩)
      · exact Or.inl (Or.inl h)
      · rcases List.mem_cons.1 hg with rfl | hg2
        · exact Or.inl (Or.inr hgn)
        · exact Or.inr ⟨g, hg2, hgn⟩

theorem leftover_labels :
    ∀ (groups : List (String × List Story)) (acc : MenuAcc),
      (newsMenuLeftoverLoop groups acc).labels
        = acc.labels
          ++ (groups.filter (fun p => !(acc.seen.contains p.1))).flatMap
              (fun p => blockLabelsOf p.1 p.2)
  | [], acc => by simp [newsMenuLeftoverLoop]
  | p :: gs, acc => by
    rw [newsMenuLeftoverLoop, List.foldl_cons]
    have ih := leftover_labels gs (leftoverStep acc p)
    rw [newsMenuLeftoverLoop] at ih
    rw [ih]
    by_cases hc : acc.seen.contains p.1 = true
    · have hstep : leftoverStep acc p = acc := by
        rw [leftoverStep, if_pos hc]
      rw [hstep]
      have hm : p.1 ∈ acc.seen := by simpa using hc
      simp [List.filter_cons, hm]
    · have hstep : leftoverStep acc p = emitSourceBlock acc p.1 p.2 := by
        rw [leftoverStep, if_neg hc]
      rw [hstep, emitSourceBlock_labels, emitSourceBlock_seen]
      have hm : p.1 ∉ acc.seen := by simpa using hc
      simp [List.filter_cons, hm, blockLabelsOf]

theorem groupInsert_keys (st : Story) :
    ∀ m : List (String × List Story),
      (groupInsert m st).map Prod.fst
        = if st.source ∈ m.map Prod.fst then m.map Prod.fst
          else m.map Prod.fst ++ [st.source]
  | [] => by simp [groupInsert]
  | (k, v) :: rest => by
    by_cases hk : k = st.source
    · rw [groupInsert, if_pos hk]
      have hmem : st.source ∈ (k, v).1 :: rest.map Prod.fst := hk ▸ List.mem_cons_self k _
      rw [List.map_cons, List.map_cons, if_pos hmem]
    · rw [groupInsert, if_neg hk, List.map_cons, List.map_cons,
        groupInsert_keys st rest]
      by_cases hc : st.source ∈ rest.map Prod.fst
      · rw [if_pos hc, if_pos (List.mem_cons_of_mem _ hc)]
      · have hnc : st.source ∉ (k, v).1 :: rest.map Prod.fst := by
          intro h
          rcases List.mem_cons.1 h with h1 | h1
          · exact hk h1.symm
          · exact hc h1
        rw [if_neg hc, if_neg hnc, List.cons_append]

theorem groupInsert_keys_nodup (st : Story) (m : List (String × List Story))
    (h : (m.map Prod.fst).Nodup) : ((groupInsert m st).map Prod.fst).Nodup := by
  rw [groupInsert_keys]
  by_cases hc : st.source ∈ m.map Prod.fst
  · rw [if_pos hc]
    exact h
  · rw [if_neg hc]
    exact List.Nodup.append h (List.nodup_singleton _) (by simpa using hc)

theorem groupBySource_keys_nodup (stories : List Story) :
    ((groupBySource stories).map Prod.fst).Nodup := by
  suffices h : ∀ (l : List Story) (m : List (String × List Story)),
      (m.map Prod.fst).Nodup → ((l.foldl groupInsert m).map Prod.fst).Nodup from
    h stories [] (by simp)
  intro l
  induction l with
  | nil => intro m hm; simpa using hm
  | cons st l ih =>
    intro m hm
    rw [List.foldl_cons]
    exact ih _ (groupInsert_keys_nodup st m hm)

theorem lookup_of_mem_nodup :
    ∀ m : List (String × List Story), (m.map Prod.fst).Nodup →
      ∀ p ∈ m, groupLookup m p.1 = some p.2
  | [], _, p, hp => absurd hp (List.not_mem_nil p)
  | (k, v) :: rest, hnd, p, hp => by
    rcases List.mem_cons.1 hp with rfl | hp2
    · rw [groupLookup_cons, if_pos rfl]
    · have hkeys := List.nodup_cons.1 (show (k :: rest.map Prod.fst).Nodup from hnd)
      have hk : ¬ k = p.1 := by
        intro he
        exact hkeys.1 (he ▸ List.mem_map_of_mem Prod.fst hp2)
      rw [groupLookup_cons, if_neg hk]
      exact lookup_of_mem_nodup rest hkeys.2 p hp2

theorem groupBySource_lookup_self (stories : List Story) (p : String × List Story)
    (hp : p ∈ groupBySource stories) :
    groupLookup (groupBySource stories) p.1 = some p.2 :=
  lookup_of_mem_nodup _ (groupBySource_keys_nodup stories) p hp

theorem names_filter_flatMap (groups : List (String × List Story)) :
    ∀ feeds : List Feed,
      (((feeds.map (fun f => f.name)).filter
          (fun n => (groupLookup groups n).isSome)).flatMap (blockLabels groups))
        = feeds.flatMap (fun f => blockLabels groups f.name)
  | [] => rfl
  | f :: fs => by
    rw [List.map_cons, List.filter_cons]
    by_cases hs : (groupLookup groups f.name).isSome = true
    · rw [if_pos hs, List.flatMap_cons, List.flatMap_cons,
        names_filter_flatMap groups fs]
    · have hnone : groupLookup groups f.name = none := by
        cases h : groupLookup groups f.name with
        | none => rfl
        | some items => rw [h] at hs; simp at hs
      have hb : blockLabels groups f.name = [] := by rw [blockLabels, hnone]
      rw [if_neg hs, names_filter_flatMap groups fs, List.flatMap_cons, hb,
        List.nil_append]

theorem leftover_filter_eq (stories : List Story) (feeds : List Feed) :
    (groupBySource stories).filter
        (fun p => !((newsMenuConfigLoop feeds (groupBySource stories)
            ⟨[], [], [], []⟩).seen.contains p.1))
      = (groupBySource stories).filter
          (fun p => !((feeds.map (fun f => f.name)).contains p.1)) := by
  apply List.filter_congr
  intro p hp
  have hself := groupBySource_lookup_self stories p hp
  have hiff : p.1 ∈ (newsMenuConfigLoop feeds (groupBySource stories)
      ⟨[], [], [], []⟩).seen ↔ p.1 ∈ feeds.map (fun f => f.name) := by
    rw [config_seen_mem]
    constructor
    · rintro (h | ⟨f, hf, hfn, _⟩)
      · exact absurd h (List.not_mem_nil _)
      · exact hfn ▸ List.mem_map_of_mem _ hf
    · intro h
      obtain ⟨f, hf, hfn⟩ := List.mem_map.1 h
      refine Or.inr ⟨f, hf, hfn, ?_⟩
      rw [hfn, hself]
      rfl
  have h1 : (newsMenuConfigLoop feeds (groupBySource stories)
        ⟨[], [], [], []⟩).seen.contains p.1
      = (feeds.map (fun f => f.name)).contains p.1 := by
    simp only [List.contains, List.elem_eq_mem]
    exact decide_eq_decide.mpr hiff
  rw [h1]

theorem news_menu_labels_eq (feeds : List Feed) (stories : List Story) :
    (newsMenuBuild feeds stories).labels = newsMenuLabelsSpec feeds stories := by
  rw [newsMenuBuild, leftover_labels, config_labels, newsMenuLabelsSpec,
    menuSourceOrder, List.flatMap_append, names_filter_flatMap,
    leftover_filter_eq, List.flatMap_map]
  simp only [List.nil_append]
  apply congrArg (_ ++ ·)
  apply List.flatMap_congr
  intro p hp
  have hself := groupBySource_lookup_self stories p (List.mem_filter.1 hp).1
  rw [blockLabels, hself]

/-- C4: the top-level label list iterates sources in configured order — one
header label `"== {UPPERCASED NAME} == ({count} entries)"` followed by at
most 10 entry labels per source present in the data — then appends a block
for every source present in the data but absent from configuration (in the
model's stand-in for the hash map's implementation-defined order), so no
fetched source is dropped; with configured sources [A, B] and fetched
stories from [B, A] the header order is A then B. -/
theorem news_menu_group_order :
    (∀ feeds stories,
        (newsMenuBuild feeds stories).labels = newsMenuLabelsSpec feeds stories)
    ∧ (∀ feeds stories, ∀ st ∈ stories, st.source ∈ menuSourceOrder feeds stories)
    ∧ headersOf (newsMenuBuild demoFeeds demoStoriesBA)
        = ["== A == (1 entries)", "== B == (1 entries)"]
    ∧ (newsMenuBuild demoFeeds demoStoriesBA).labels
        = ["== A == (1 entries)", "  - ta", "== B == (1 entries)", "  - tb"] := by
  refine ⟨news_menu_labels_eq, ?_, by decide, by decide⟩
  intro feeds stories st hst
  have hfil : st ∈ stories.filter (fun x => x.source == st.source) :=
    List.mem_filter.2 ⟨hst, by simp⟩
  have hne : stories.filter (fun x => x.source == st.source) ≠ [] := by
    intro h
    rw [h] at hfil
    exact absurd hfil (List.not_mem_nil st)
  have hlook : groupLookup (groupBySource stories) st.source
      = some (stories.filter (fun x => x.source == st.source)) := by
    rw [groupBySource, groupBySource_foldl_none st.source stories [] rfl, if_neg hne]
  rw [menuSourceOrder]
  by_cases hn : st.source ∈ feeds.map (fun f => f.name)
  · apply List.mem_append_left
    apply List.mem_filter.2
    refine ⟨hn, ?_⟩
    rw [hlook]
    rfl
  · apply List.mem_append_right
    have hex : ∃ p ∈ groupBySource stories, p.1 = st.source := by
      rw [groupLookup] at hlook
      cases hf : (groupBySource stories).find? (fun p => p.1 == st.source) with
      | none => rw [hf] at hlook; cases hlook
      | some pr =>
        have hpr := List.mem_of_find?_eq_some hf
        have heq := List.find?_some hf
        exact ⟨pr, hpr, by simpa using heq⟩
    obtain ⟨pr, hpr, hpr1⟩ := hex
    apply List.mem_map.2
    refine ⟨pr, ?_, hpr1⟩
    apply List.mem_filter.2
    refine ⟨hpr, ?_⟩
    rw [hpr1]
    simp only [List.contains, List.elem_eq_mem, hn, decide_False, Bool.not_false]

/-- Instantiation of the grouping-order theorem's universally quantified
clauses on the two-source scenario. -/
theorem news_menu_group_order_inst :
    (newsMenuBuild demoFeeds demoStoriesBA).labels
      = newsMenuLabelsSpec demoFeeds demoStoriesBA
    ∧ (⟨"tb", "https://b.example/s", "B", false⟩ : Story).source
        ∈ menuSourceOrder demoFeeds demoStoriesBA :=
  ⟨news_menu_group_order.1 demoFeeds demoStoriesBA,
   news_menu_group_order.2.1 demoFeeds demoStoriesBA
     ⟨"tb", "https://b.example/s", "B", false⟩ (by decide)⟩

/-- C5 amended: the sequence of Stories under a source name is the
(annotated, deduplicated) story list restricted to that source in that
list's order — and the ingestion pipeline produces that list sorted by
link, not in feed production order; the top-level menu shows at most the
first 10 of them (one header label plus up to 10 entry labels per block)
while the single-source drill-down list has exactly one label per story,
uncapped. -/
theorem grouped_view_order_amended :
    (∀ stories s l, groupLookup (groupBySource stories) s = some l →
        l = stories.filter (fun st => st.source == s))
    ∧ (∀ l, List.Sorted linkLe (collectDedup l))
    ∧ (∀ acc s items, (emitSourceBlock acc s items).labels
        = acc.labels ++ headerLabel s items.length :: (items.take 10).map storyLabel)
    ∧ (∀ entries, (sourceMenuLabels entries).length = entries.length) := by
  refine ⟨?_, ?_, ?_, ?_⟩
  · intro stories s l hl
    rw [groupBySource, groupBySource_foldl_none s stories [] rfl] at hl
    by_cases hf : stories.filter (fun st => st.source == s) = []
    · rw [if_pos hf] at hl
      cases hl
    · rw [if_neg hf] at hl
      exact (Option.some.inj hl).symm
  · intro l
    exact dedupByLink_sorted (sortStories_sorted l)
  · intro acc s items
    exact emitSourceBlock_labels acc s items
  · intro entries
    simp [sourceMenuLabels]

/-- Instantiation of the amended grouped-view theorem: in the two-source
scenario the grouped sequence for source A is the restriction of the story
list to A. -/
theorem grouped_view_order_amended_inst :
    ([⟨"ta", "https://a.example/s", "A", false⟩] : List Story)
      = demoStoriesBA.filter (fun st => st.source == "A") :=
  grouped_view_order_amended.1 demoStoriesBA "A"
    [⟨"ta", "https://a.example/s", "A", false⟩] (by decide)

/-- C10: `SeenStories::load` is total and never fails: on every failure path
(no path, no file, unreadable file, unparseable JSON) it returns the empty
seen set, on which every link reads as unseen; and in general it returns
either the empty set or the successfully parsed value. -/
theorem seen_load_total_spec :
    (∀ hasPath isFile readResult parsed,
      (hasPath = false ∨ isFile = false ∨ readResult = none
        ∨ (∀ c, readResult = some c → parsed c = none)) →
      seenLoad hasPath isFile readResult parsed = ⟨[]⟩)
    ∧ (∀ link, SeenStories.is_seen ⟨[]⟩ link = false)
    ∧ (∀ hasPath isFile readResult parsed,
        seenLoad hasPath isFile readResult parsed = ⟨[]⟩
        ∨ (∃ c seen, readResult = some c ∧ parsed c = some seen
            ∧ seenLoad hasPath isFile readResult parsed = seen)) := by
  refine ⟨?_, ?_, ?_⟩
  · intro hasPath isFile readResult parsed h
    rcases h with h | h | h | h
    · simp [seenLoad, h]
    · simp [seenLoad, h]
    · simp [seenLoad, h]
    · cases hasPath with
      | false => simp [seenLoad]
      | true =>
        cases isFile with
        | false => simp [seenLoad]
        | true =>
          cases readResult with
          | none => simp [seenLoad]
          | some c => simp [seenLoad, h c rfl]
  · intro link
    rfl
  · intro hasPath isFile readResult parsed
    cases hasPath with
    | false => exact Or.inl rfl
    | true =>
      cases isFile with
      | false => exact Or.inl rfl
      | true =>
        cases readResult with
        | none => exact Or.inl rfl
        | some c =>
          cases hp : parsed c with
          | none => exact Or.inl (by simp [seenLoad, hp])
          | some seen => exact Or.inr ⟨c, seen, rfl, hp, by simp [seenLoad, hp]⟩

/-- Instantiation of the seen-store loading theorem: a present but
unparseable history file loads as the empty set, and an arbitrary link
reads as unseen. -/
theorem seen_load_total_spec_inst :
    seenLoad true true (some "not json") (fun _ => none) = ⟨[]⟩
    ∧ SeenStories.is_seen ⟨[]⟩ "https://l1.example/a" = false :=
  ⟨seen_load_total_spec.1 true true (some "not json") (fun _ => none)
      (Or.inr (Or.inr (Or.inr (fun _ _ => rfl)))),
   seen_load_total_spec.2.1 "https://l1.example/a"⟩

end NewsCli
